import Mathlib

/-!
Verification of the EPC scraper (listing/certificate extraction, validation,
monitoring tracker, deduplication) against its natural-language specification.

The Python modules are shallowly embedded:
* Python scalar/list values become the inductive types `Prim` and `Val`;
  dictionaries with string keys become association lists (`EpcRec`).
* Python string helpers used by the code are modelled on character lists
  (`pyTokens` for `str.split()`, `pyStrip` for `str.strip()`, `pyUpper`
  for `str.upper()`, and the code-point lexicographic order `pyLe` that
  `sorted` uses on strings).
* JSON documents become the inductive type `Json`; reading and writing the
  state file passes the `Json` value through unchanged, which models the
  round trip of `json.dump` followed by `json.load`.
* Code that can raise returns `Except PyErr`.
* The external `dateutil` date parser and `urllib.parse.urljoin` are taken
  as parameters, so every theorem about code using them holds for every
  behaviour of those libraries.
-/

/- ## Python string primitives -/

/- Code-point lexicographic order on strings, the order Python `sorted`
uses for strings. -/
def chLe : List Char → List Char → Bool
  | [], _ => true
  | _ :: _, [] => false
  | a :: as, b :: bs => if a = b then chLe as bs else decide (a < b)

def pyStrLe (a b : String) : Bool :=
  chLe a.toList b.toList

def pyLe (a b : String) : Prop := pyStrLe a b = true

instance : DecidableRel pyLe := fun a b => by unfold pyLe; infer_instance

theorem chLe_total (a b : List Char) : chLe a b = true ∨ chLe b a = true := by
  induction a generalizing b with
  | nil => left; rfl
  | cons x xs ih =>
    cases b with
    | nil => right; rfl
    | cons y ys =>
      by_cases hxy : x = y
      · subst hxy
        simpa [chLe] using ih ys
      · have hne : y ≠ x := fun h => hxy h.symm
        rcases lt_trichotomy x y with h | h | h
        · left; simp [chLe, hxy, h]
        · exact absurd h hxy
        · right; simp [chLe, hne, h]

theorem chLe_antisymm (a b : List Char) (hab : chLe a b = true) (hba : chLe b a = true) :
    a = b := by
  induction a generalizing b with
  | nil =>
    cases b with
    | nil => rfl
    | cons y ys => simp [chLe] at hba
  | cons x xs ih =>
    cases b with
    | nil => simp [chLe] at hab
    | cons y ys =>
      by_cases hxy : x = y
      · subst hxy
        simp only [chLe, if_pos rfl] at hab hba
        rw [ih ys hab hba]
      · have hne : y ≠ x := fun h => hxy h.symm
        simp only [chLe, if_neg hxy, decide_eq_true_eq] at hab
        simp only [chLe, if_neg hne, decide_eq_true_eq] at hba
        exact absurd (lt_trans hab hba) (lt_irrefl x)

theorem chLe_trans (a b c : List Char) (hab : chLe a b = true) (hbc : chLe b c = true) :
    chLe a c = true := by
  induction a generalizing b c with
  | nil => rfl
  | cons x xs ih =>
    cases b with
    | nil => simp [chLe] at hab
    | cons y ys =>
      cases c with
      | nil => simp [chLe] at hbc
      | cons z zs =>
        by_cases hxy : x = y <;> by_cases hyz : y = z
        · subst hxy; subst hyz
          simp only [chLe, if_pos rfl] at hab hbc ⊢
          exact ih ys zs hab hbc
        · subst hxy
          simp only [chLe] at hab hbc ⊢
          rw [if_neg hyz] at hbc
          rw [if_neg hyz]
          exact hbc
        · subst hyz
          simp only [chLe] at hab hbc ⊢
          rw [if_neg hxy] at hab
          rw [if_neg hxy]
          exact hab
        · simp only [chLe, if_neg hxy, decide_eq_true_eq] at hab
          simp only [chLe, if_neg hyz, decide_eq_true_eq] at hbc
          have hlt : x < z := lt_trans hab hbc
          have hxz : x ≠ z := ne_of_lt hlt
          simp [chLe, if_neg hxz, hlt]

instance : IsTotal String pyLe := ⟨fun a b => chLe_total a.toList b.toList⟩

instance : IsTrans String pyLe := ⟨fun a b c => chLe_trans a.toList b.toList c.toList⟩

instance : IsAntisymm String pyLe :=
  ⟨fun a b hab hba => by
    have h := chLe_antisymm a.toList b.toList hab hba
    cases a; cases b
    exact congrArg String.mk h⟩

/- `sorted(s)` for a Python set of strings. -/
def sortFin (s : Finset String) : List String :=
  Quotient.liftOn s.val (List.insertionSort pyLe)
    (fun l₁ l₂ h =>
      List.eq_of_perm_of_sorted
        ((List.perm_insertionSort _ l₁).trans (h.trans (List.perm_insertionSort _ l₂).symm))
        (List.sorted_insertionSort _ l₁) (List.sorted_insertionSort _ l₂))

/- `str.split()` with no argument: split on runs of whitespace, dropping
empty tokens. -/
def pyTokensAux : List Char → List Char → List String
  | [], cur => if cur.isEmpty then [] else [String.mk cur.reverse]
  | c :: rest, cur =>
    if c.isWhitespace then
      if cur.isEmpty then pyTokensAux rest [] else String.mk cur.reverse :: pyTokensAux rest []
    else pyTokensAux rest (c :: cur)

def pyTokens (s : String) : List String :=
  pyTokensAux s.toList []

/- `str.strip()` with no argument: remove leading and trailing whitespace. -/
def pyStripL (l : List Char) : List Char :=
  ((l.dropWhile Char.isWhitespace).reverse.dropWhile Char.isWhitespace).reverse

def pyStrip (s : String) : String :=
  String.mk (pyStripL s.toList)

/- `str.upper()` (the certificates only use ASCII rating bands). -/
def pyUpper (s : String) : String :=
  String.mk (s.toList.map Char.toUpper)

/- `str.lower()`. -/
def pyLower (s : String) : String :=
  String.mk (s.toList.map Char.toLower)

/- The Python substring test `pat in s`, on character lists. -/
def hasSubstrL (pat : List Char) : List Char → Bool
  | [] => pat.isEmpty
  | c :: rest => pat.isPrefixOf (c :: rest) || hasSubstrL pat rest

def pyContains (s pat : String) : Bool :=
  hasSubstrL pat.toList s.toList

/- `s[s.find(pat):]` when `pat` occurs in `s`: the suffix of `s` from the
first occurrence of `pat` (the whole scan returns `[]` when absent, a case
the code never reaches because it is guarded by the substring test). -/
def suffixFromL (pat : List Char) : List Char → List Char
  | [] => []
  | c :: rest => if pat.isPrefixOf (c :: rest) then c :: rest else suffixFromL pat rest

def pySuffixFrom (s pat : String) : String :=
  String.mk (suffixFromL pat.toList s.toList)

/- `str.startswith(pat)`. -/
def pyStartsWith (s pat : String) : Bool :=
  pat.toList.isPrefixOf s.toList

/- ## Python values and dictionaries -/

/- Scalar Python values appearing in the scraper records. -/
inductive Prim where
  | pNull
  | pBool (b : Bool)
  | pInt (n : Int)
  | pStr (s : String)
  deriving DecidableEq, Repr

/- The value universe of the embedding: scalars plus flat lists of scalars.
The two list-valued schema fields (`features`, `changes`) only matter to
the claims through their default `[]`, so list elements are kept scalar. -/
inductive Val where
  | vNull
  | vBool (b : Bool)
  | vInt (n : Int)
  | vStr (s : String)
  | vList (l : List Prim)
  deriving DecidableEq, Repr

/- Python truthiness of a value. -/
def pyTruthy : Val → Bool
  | .vNull => false
  | .vBool b => b
  | .vInt n => n ≠ 0
  | .vStr s => s ≠ ""
  | .vList l => !l.isEmpty

/- `str(v)` for the scalar values (only string ratings are exercised by the
claims; the remaining cases follow the Python rendering of scalars). -/
def pyStrOfVal : Val → String
  | .vNull => "None"
  | .vBool b => if b then "True" else "False"
  | .vInt n => toString n
  | .vStr s => s
  | .vList _ => "[...]"

/- A Python dict with string keys, as an association list in insertion
order; all the dict operations used by the scraper are first-occurrence
based, matching dicts whose keys are unique. -/
abbrev EpcRec : Type := List (String × Val)

/- `d.get(k)` (default `None`). -/
def dictGet : EpcRec → String → Val
  | [], _ => .vNull
  | (k, v) :: rest, key => if k = key then v else dictGet rest key

/- `d[k] = v`: replace the value at the first occurrence of the key,
keeping its position, else append. -/
def dictSet : EpcRec → String → Val → EpcRec
  | [], key, v => [(key, v)]
  | (k, v₀) :: rest, key, v =>
    if k = key then (k, v) :: rest else (k, v₀) :: dictSet rest key v

/- `k in d`. -/
def dictHasKey : EpcRec → String → Bool
  | [], _ => false
  | (k, _) :: rest, key => k = key || dictHasKey rest key

/- `d.setdefault(k, v)`. -/
def dictSetdefault (d : EpcRec) (key : String) (v : Val) : EpcRec :=
  if dictHasKey d key then d else d ++ [(key, v)]

theorem dictGet_set_same (d : EpcRec) (k : String) (v : Val) :
    dictGet (dictSet d k v) k = v := by
  induction d with
  | nil => simp [dictSet, dictGet]
  | cons kv rest ih =>
    obtain ⟨k₀, v₀⟩ := kv
    by_cases h : k₀ = k
    · simp [dictSet, dictGet, h]
    · simp [dictSet, dictGet, h, ih]

theorem dictGet_set_ne (d : EpcRec) (k k' : String) (v : Val) (h : k ≠ k') :
    dictGet (dictSet d k v) k' = dictGet d k' := by
  induction d with
  | nil => simp [dictSet, dictGet, h]
  | cons kv rest ih =>
    obtain ⟨k₀, v₀⟩ := kv
    by_cases h₀ : k₀ = k
    · subst h₀
      simp [dictSet, dictGet, h]
    · simp [dictSet, dictGet, h₀, ih]

theorem dictSet_same (d : EpcRec) (k : String) (hmem : dictHasKey d k = true) :
    dictSet d k (dictGet d k) = d := by
  induction d with
  | nil => simp [dictHasKey] at hmem
  | cons kv rest ih =>
    obtain ⟨k₀, v₀⟩ := kv
    by_cases h : k₀ = k
    · subst h
      simp [dictSet, dictGet]
    · have : dictHasKey rest k = true := by
        simpa [dictHasKey, h] using hmem
      simp [dictSet, dictGet, h, ih this]

theorem dictHasKey_set (d : EpcRec) (k k' : String) (v : Val) :
    dictHasKey (dictSet d k v) k' = (dictHasKey d k' || k = k') := by
  induction d with
  | nil => simp [dictSet, dictHasKey, eq_comm]
  | cons kv rest ih =>
    obtain ⟨k₀, v₀⟩ := kv
    by_cases h : k₀ = k
    · subst h
      by_cases h' : k₀ = k'
      · simp [dictSet, dictHasKey, h']
      · simp [dictSet, dictHasKey, h', ih]
    · by_cases h' : k₀ = k'
      · have hne : ¬(k' = k) := fun hh => h (h'.trans hh)
        simp [dictSet, dictHasKey, h, h', hne]
      · simp [dictSet, dictHasKey, h, h', ih]

theorem dictSetdefault_of_hasKey (d : EpcRec) (k : String) (v : Val)
    (h : dictHasKey d k = true) : dictSetdefault d k v = d := by
  simp [dictSetdefault, h]

theorem dictHasKey_append (d e : EpcRec) (k : String) :
    dictHasKey (d ++ e) k = (dictHasKey d k || dictHasKey e k) := by
  induction d with
  | nil => simp [dictHasKey]
  | cons kv rest ih =>
    obtain ⟨k₀, v₀⟩ := kv
    simp [dictHasKey, ih, Bool.or_assoc]

theorem dictHasKey_setdefault_self (d : EpcRec) (k : String) (v : Val) :
    dictHasKey (dictSetdefault d k v) k = true := by
  unfold dictSetdefault
  by_cases h : dictHasKey d k
  · simp [h]
  · simp [h, dictHasKey_append, dictHasKey]

theorem dictHasKey_setdefault_mono (d : EpcRec) (k k' : String) (v : Val)
    (h : dictHasKey d k' = true) : dictHasKey (dictSetdefault d k v) k' = true := by
  unfold dictSetdefault
  by_cases hk : dictHasKey d k
  · simp [hk, h]
  · simp [hk, dictHasKey_append, h]

/- ## JSON documents and the monitoring state file (src/monitoring/tracker.py) -/

/- JSON values as produced by `json.load`; numbers are kept integral, which
covers every shape the claims exercise. -/
inductive Json where
  | null
  | jbool (b : Bool)
  | num (n : Int)
  | str (s : String)
  | arr (elems : List Json)
  | obj (fields : List (String × Json))

/- `str(x)` on a loaded JSON value: exact on scalars; the container cases
are fixed placeholder renderings (no claim depends on them). -/
def jsonPyStr : Json → String
  | .null => "None"
  | .jbool b => if b then "True" else "False"
  | .num n => toString n
  | .str s => s
  | .arr _ => "[...]"
  | .obj _ => "\x7b...\x7d"

/- Python exceptions that the embedded code can raise. -/
inductive PyErr where
  | typeError
  | osError
  | indexError
  deriving DecidableEq, Repr

/- The condition of the state file when `load_state` runs: missing, present
but unreadable (``open`` raises ``OSError``), present but not valid JSON
(``json.load`` raises ``JSONDecodeError``), or holding a JSON document. -/
inductive StateFile where
  | absent
  | unreadable
  | badJson
  | json (j : Json)

/- Key lookup in a JSON object (`data["ids"]` / `"ids" in data`). -/
def jlookup : List (String × Json) → String → Option Json
  | [], _ => none
  | (k, v) :: rest, key => if k = key then some v else jlookup rest key

/- `{str(x) for x in v}`: iterating a list yields its elements, iterating a
string yields its one-character substrings, iterating an object yields its
keys; every other value raises `TypeError`. -/
def pyIterToStrSet : Json → Except PyErr (Finset String)
  | .arr l => .ok (l.map jsonPyStr).toFinset
  | .str s => .ok (s.toList.map (fun c => String.mk [c])).toFinset
  | .obj kvs => .ok (kvs.map Prod.fst).toFinset
  | _ => .error .typeError

/- Whether `for x in v` succeeds on a loaded JSON value. -/
def jsonIterable : Json → Bool
  | .arr _ => true
  | .str _ => true
  | .obj _ => true
  | _ => false

/- `load_state` from src/monitoring/tracker.py: only `JSONDecodeError` is
caught, so `open` failures and the `TypeError` from iterating a
non-iterable `ids` value escape. -/
def load_state : StateFile → Except PyErr (Finset String)
  | .absent => .ok ∅
  | .unreadable => .error .osError
  | .badJson => .ok ∅
  | .json (.arr l) => .ok (l.map jsonPyStr).toFinset
  | .json (.obj kvs) =>
    match jlookup kvs "ids" with
    | some v => pyIterToStrSet v
    | none => .ok ∅
  | .json _ => .ok ∅

/- `save_state` from src/monitoring/tracker.py: the JSON document written
to the state file, `{"ids": sorted(set(ids))}`. -/
def save_state (ids : List String) : Json :=
  .obj [("ids", .arr ((sortFin ids.toFinset).map Json.str))]

/- Membership of a record id value in the persisted set of string ids,
as Python `rec_id in previous_ids` compares values. -/
def valInStrSet (v : Val) (s : Finset String) : Bool :=
  match v with
  | .vStr t => t ∈ s
  | _ => false

/- One iteration of the loop in `detect_changes`: a truthy id joins
`current_ids`, and the record is appended to `new_records` when the id is
not in `previous_ids`. -/
def detectStep (previous_ids : Finset String) (acc : Finset Val × List EpcRec)
    (r : EpcRec) : Finset Val × List EpcRec :=
  let rid := dictGet r "id"
  if pyTruthy rid then
    (insert rid acc.1, if valInStrSet rid previous_ids then acc.2 else acc.2 ++ [r])
  else acc

/- `detect_changes` from src/monitoring/tracker.py. -/
def detect_changes (current_records : List EpcRec) (previous_ids : Finset String) :
    List EpcRec × List EpcRec × Finset Val :=
  let st := current_records.foldl (detectStep previous_ids) (∅, [])
  let removed_ids : Finset String := previous_ids.filter (fun s => Val.vStr s ∉ st.1)
  let removed_records : List EpcRec :=
    (sortFin removed_ids).map (fun i => [("id", Val.vStr i), ("removed", Val.vBool true)])
  (st.2, removed_records, previous_ids.image Val.vStr ∪ st.1)

/- Claim-side description of `detect_changes`, written from the words of
the specification: new records are the current records, in encounter
order, whose id is truthy and not previously seen. -/
def newRecordsSpec (current : List EpcRec) (prev : Finset String) : List EpcRec :=
  current.filter (fun r => pyTruthy (dictGet r "id") && !valInStrSet (dictGet r "id") prev)

/- The ids accumulated from the current records (records lacking a truthy
id contribute nothing). -/
def currentIdsSpec (current : List EpcRec) : Finset Val :=
  (current.filterMap
    (fun r => if pyTruthy (dictGet r "id") then some (dictGet r "id") else none)).toFinset

/- One removal stub per previously seen id that no current record carries,
sorted by id. -/
def removedRecordsSpec (current : List EpcRec) (prev : Finset String) : List EpcRec :=
  (sortFin (prev.filter (fun s => Val.vStr s ∉ currentIdsSpec current))).map
    (fun i => [("id", Val.vStr i), ("removed", Val.vBool true)])

/- The union of previous and current ids. -/
def updatedIdSetSpec (current : List EpcRec) (prev : Finset String) : Finset Val :=
  prev.image Val.vStr ∪ currentIdsSpec current

theorem detect_changes_foldl (prev : Finset String) (l : List EpcRec)
    (S : Finset Val) (L : List EpcRec) :
    l.foldl (detectStep prev) (S, L) =
      (S ∪ currentIdsSpec l, L ++ newRecordsSpec l prev) := by
  induction l generalizing S L with
  | nil => simp [currentIdsSpec, newRecordsSpec]
  | cons r l ih =>
    by_cases ht : pyTruthy (dictGet r "id")
    · by_cases hm : valInStrSet (dictGet r "id") prev
      · simp only [List.foldl_cons, detectStep, ht, if_true, hm, ih]
        simp [currentIdsSpec, newRecordsSpec, ht, hm, Finset.union_insert, Finset.insert_union]
      · simp only [List.foldl_cons, detectStep, ht, if_true, hm, if_false, ih]
        simp [currentIdsSpec, newRecordsSpec, ht, hm, Finset.union_insert, Finset.insert_union]
    · simp only [List.foldl_cons, detectStep, ht, if_false, ih]
      simp [currentIdsSpec, newRecordsSpec, ht]

theorem sortFin_toFinset (s : Finset String) : (sortFin s).toFinset = s := by
  obtain ⟨m, hn⟩ := s
  revert hn
  refine Quotient.inductionOn m ?_
  intro l hn
  ext a
  show a ∈ (List.insertionSort pyLe l).toFinset ↔ _
  rw [List.mem_toFinset, (List.perm_insertionSort pyLe l).mem_iff]
  simp [Finset.mem_def]

/-- C1: for every list of current records and every set of previous ids,
`detect_changes` returns exactly the new records in encounter order
(records whose id is truthy and not previously seen; records lacking a
truthy id are excluded from new-detection and id accumulation), the
removal stubs `{id, removed: true}` for previous ids minus current ids
sorted by id, and the union of previous and current ids. -/
theorem detect_changes_spec (current : List EpcRec) (prev : Finset String) :
    detect_changes current prev =
      (newRecordsSpec current prev,
       removedRecordsSpec current prev,
       updatedIdSetSpec current prev) := by
  unfold detect_changes removedRecordsSpec updatedIdSetSpec
  rw [detect_changes_foldl]
  simp

/-- C2: saving any list of ids and loading the written file back returns
exactly the set of those ids; the result depends only on the set, not on
the iteration order handed to `save_state`. -/
theorem save_load_roundtrip (ids : List String) :
    load_state (.json (save_state ids)) = .ok ids.toFinset := by
  show pyIterToStrSet (.arr ((sortFin ids.toFinset).map Json.str)) = .ok ids.toFinset
  simp only [pyIterToStrSet, List.map_map]
  have h : List.map (jsonPyStr ∘ Json.str) (sortFin ids.toFinset) = sortFin ids.toFinset := by
    simp [Function.comp_def, jsonPyStr]
  rw [h, sortFin_toFinset]

/-- C9 counterexample: on the state file `{"ids": 5}` the code iterates
the number 5, raising an uncaught `TypeError` instead of returning a set,
so `load_state` does not handle every JSON shape without failing. -/
theorem load_state_raises_on_noniterable_ids :
    load_state (.json (.obj [("ids", Json.num 5)])) = .error PyErr.typeError := rfl

/-- C9 (amended): `load_state` returns a set of strings for every
state-file condition except two: a file whose `open` fails, and a JSON
object whose `ids` value is not iterable (a number, boolean, or null),
where the `TypeError` escapes because only `JSONDecodeError` is caught.
It returns the listed ids for a plain JSON list and for an object whose
`ids` value is a list, and the empty set for an absent file, malformed
JSON, and every other JSON shape without an `ids` key. -/
theorem load_state_characterization :
    (∀ f : StateFile, (∃ s, load_state f = .ok s) ↔
        ¬(f = .unreadable ∨ ∃ kvs v, f = .json (.obj kvs) ∧
            jlookup kvs "ids" = some v ∧ jsonIterable v = false))
    ∧ (∀ l, load_state (.json (.arr l)) = .ok (l.map jsonPyStr).toFinset)
    ∧ (∀ kvs l, jlookup kvs "ids" = some (.arr l) →
        load_state (.json (.obj kvs)) = .ok (l.map jsonPyStr).toFinset)
    ∧ load_state .absent = .ok ∅ ∧ load_state .badJson = .ok ∅ := by
  refine ⟨fun f => ?_, fun l => rfl, fun kvs l h => by simp [load_state, h, pyIterToStrSet],
    rfl, rfl⟩
  cases f with
  | absent => simp [load_state]
  | unreadable => simp [load_state]
  | badJson => simp [load_state]
  | json j =>
    cases j with
    | null => simp [load_state]
    | jbool b => simp [load_state]
    | num n => simp [load_state]
    | str s => simp [load_state]
    | arr l => simp [load_state]
    | obj kvs =>
      simp only [load_state]
      cases h : jlookup kvs "ids" with
      | none => simp [h]
      | some v =>
        cases v with
        | null => simp [h, pyIterToStrSet, jsonIterable]
        | jbool b => simp [h, pyIterToStrSet, jsonIterable]
        | num n => simp [h, pyIterToStrSet, jsonIterable]
        | str s => simp [h, pyIterToStrSet, jsonIterable]
        | arr l => simp [h, pyIterToStrSet, jsonIterable]
        | obj kvs' => simp [h, pyIterToStrSet, jsonIterable]

/-- Witness for the amended C9 theorem at concrete inputs. -/
theorem load_state_characterization_witness :
    load_state (.json (.obj [("ids", Json.arr [Json.str "a"])])) =
      .ok ([Json.str "a"].map jsonPyStr).toFinset :=
  load_state_characterization.2.2.1 [("ids", Json.arr [Json.str "a"])] [Json.str "a"] rfl

/- ## Validation and normalization (src/extractors/utils_validation.py) -/

/- `parse_date` applied to a record value: falsy values give `None`, and
`dateutil` (here the parameter `pd`) parses strings; on a non-string
truthy value `dateutil` raises `TypeError`, which `parse_date` catches
and turns into `None`. -/
def parse_date (pd : String → Option Int) (v : Val) : Option Int :=
  if pyTruthy v = false then none
  else
    match v with
    | .vStr s => pd s
    | _ => none

/- `is_expired` at a fixed reference instant `ref` (times are modelled as
integers, compared as `datetime` objects compare). -/
def is_expired (pd : String → Option Int) (ref : Int) (valid_till : Val) : Option Bool :=
  if pyTruthy valid_till = false then none
  else
    match parse_date pd valid_till with
    | none => none
    | some dt => some (decide (dt < ref))

def optBoolToVal : Option Bool → Val
  | none => .vNull
  | some b => .vBool b

/- The `defaults` table of `normalize_record`, in source order. -/
def normalizeDefaults : List (String × Val) :=
  [("url", .vNull), ("postCode", .vNull), ("locality", .vNull), ("address", .vNull),
   ("rating", .vNull), ("id", .vNull), ("propertyType", .vNull), ("floorArea", .vNull),
   ("currentScore", .vNull), ("potentialScore", .vNull), ("primaryUsage", .vNull),
   ("averageBill", .vNull), ("potentialSaving", .vNull), ("averageCostYear", .vNull),
   ("co2Produces", .vNull), ("co2Potential", .vNull), ("features", .vList []),
   ("changes", .vList []), ("assessorName", .vNull), ("assessorPhone", .vNull),
   ("assessorEmail", .vNull), ("accreditationScheme", .vNull),
   ("accreditationAssessorID", .vNull), ("accreditationPhone", .vNull),
   ("accreditationEmail", .vNull), ("assessmentDate", .vNull), ("certificateDate", .vNull),
   ("assessmentType", .vNull), ("validtillDate", .vNull), ("expired", .vNull)]

/- The `setdefault` loop of `normalize_record`. -/
def normalizeFill (record : EpcRec) : EpcRec :=
  normalizeDefaults.foldl (fun acc kv => dictSetdefault acc kv.1 kv.2) record

/- The derived-field step of `normalize_record`: compute `expired` from
`validtillDate` when it is still `None`. -/
def normalizeExpired (pd : String → Option Int) (ref : Int) (r : EpcRec) : EpcRec :=
  if dictGet r "expired" = .vNull then
    dictSet r "expired" (optBoolToVal (is_expired pd ref (dictGet r "validtillDate")))
  else r

/- `normalize_record` from src/extractors/utils_validation.py. -/
def normalize_record (pd : String → Option Int) (ref : Int) (record : EpcRec) : EpcRec :=
  normalizeExpired pd ref (normalizeFill record)

theorem normalizeFill_of_hasKey_all (record : EpcRec)
    (h : ∀ kv ∈ normalizeDefaults, dictHasKey record kv.1 = true) :
    normalizeFill record = record := by
  unfold normalizeFill
  generalize normalizeDefaults = ds at h ⊢
  induction ds generalizing record with
  | nil => rfl
  | cons kv rest ih =>
    rw [List.foldl_cons, dictSetdefault_of_hasKey record kv.1 kv.2 (h kv (by simp))]
    exact ih record (fun kv' hkv' => h kv' (List.mem_cons_of_mem kv hkv'))

theorem dictHasKey_foldl_setdefault_mono (ds : List (String × Val)) (record : EpcRec)
    (k : String) (h : dictHasKey record k = true) :
    dictHasKey (ds.foldl (fun acc kv => dictSetdefault acc kv.1 kv.2) record) k = true := by
  induction ds generalizing record with
  | nil => exact h
  | cons kv rest ih =>
    rw [List.foldl_cons]
    exact ih _ (dictHasKey_setdefault_mono record kv.1 k kv.2 h)

theorem normalizeFill_hasKey_all (record : EpcRec) :
    ∀ kv ∈ normalizeDefaults, dictHasKey (normalizeFill record) kv.1 = true := by
  unfold normalizeFill
  generalize normalizeDefaults = ds
  induction ds generalizing record with
  | nil => intro kv hkv; cases hkv
  | cons kv₀ rest ih =>
    intro kv hkv
    rcases List.mem_cons.mp hkv with h | h
    · subst h
      rw [List.foldl_cons]
      exact dictHasKey_foldl_setdefault_mono rest _ kv.1
        (dictHasKey_setdefault_self record kv.1 kv.2)
    · rw [List.foldl_cons]
      exact ih _ kv h

/-- C3: `normalize_record` is idempotent at a fixed reference time: the
second application changes no key and no value, including the derived
`expired` flag, whatever the behaviour of the external date parser. -/
theorem normalize_record_idem (pd : String → Option Int) (ref : Int) (record : EpcRec) :
    normalize_record pd ref (normalize_record pd ref record) =
      normalize_record pd ref record := by
  unfold normalize_record
  have hkeys := normalizeFill_hasKey_all record
  set r1 := normalizeFill record with hr1
  have hexp : ("expired", Val.vNull) ∈ normalizeDefaults := by
    simp [normalizeDefaults]
  have hkeyExp : dictHasKey r1 "expired" = true := hkeys ("expired", Val.vNull) hexp
  unfold normalizeExpired
  by_cases h : dictGet r1 "expired" = .vNull
  · rw [if_pos h]
    set w := optBoolToVal (is_expired pd ref (dictGet r1 "validtillDate")) with hw
    set n := dictSet r1 "expired" w with hn
    have hkeys2 : ∀ kv ∈ normalizeDefaults, dictHasKey n kv.1 = true := by
      intro kv hkv
      rw [hn, dictHasKey_set]
      simp [hkeys kv hkv]
    rw [normalizeFill_of_hasKey_all n hkeys2]
    have hvt : dictGet n "validtillDate" = dictGet r1 "validtillDate" := by
      rw [hn]
      exact dictGet_set_ne r1 "expired" "validtillDate" w (by decide)
    have hge : dictGet n "expired" = w := by
      rw [hn]
      exact dictGet_set_same r1 "expired" w
    cases he : is_expired pd ref (dictGet r1 "validtillDate") with
    | some b =>
      have hb : dictGet n "expired" = .vBool b := by rw [hge, hw, he]; rfl
      rw [if_neg (by rw [hb]; intro hh; cases hh)]
    | none =>
      have hwnull : w = .vNull := by rw [hw, he]; rfl
      have hgn : dictGet n "expired" = .vNull := by rw [hge, hwnull]
      rw [if_pos hgn, hvt, he]
      have hkeyn : dictHasKey n "expired" = true := hkeys2 ("expired", Val.vNull) hexp
      have hset := dictSet_same n "expired" hkeyn
      rw [hgn] at hset
      exact hset
  · rw [if_neg h]
    rw [normalizeFill_of_hasKey_all r1 hkeys]
    rw [if_neg h]

/- ## validate_epc_record (src/extractors/utils_validation.py) -/

/- The validation error messages, abstracted to tags (the claims do not
depend on the message text). -/
inductive VErr where
  | missingField (f : String)
  | badRatingBand
  | expiredFlagMissing
  deriving DecidableEq, Repr

/- The required-field loop: one error per falsy field among
url, id, postCode, address, in that order. -/
def requiredFieldErrs (r : EpcRec) : List VErr :=
  ["url", "id", "postCode", "address"].filterMap
    (fun f => if pyTruthy (dictGet r f) then none else some (.missingField f))

/- `list("ABCDEFG")`. -/
def ratingBandLetters : List String := ["A", "B", "C", "D", "E", "F", "G"]

/- The rating check: on a truthy rating, take
`str(rating).strip().upper().split()` and index its last element, which
raises `IndexError` when the token list is empty. -/
def ratingErrs (r : EpcRec) : Except PyErr (List VErr) :=
  if pyTruthy (dictGet r "rating") then
    match (pyTokens (pyUpper (pyStrip (pyStrOfVal (dictGet r "rating"))))).getLast? with
    | none => .error .indexError
    | some band =>
      if ratingBandLetters.contains band then .ok [] else .ok [.badRatingBand]
  else .ok []

/- The `validtillDate`-without-`expired` check. -/
def expiredErrs (r : EpcRec) : List VErr :=
  if pyTruthy (dictGet r "validtillDate") && decide (dictGet r "expired" = Val.vNull) then
    [.expiredFlagMissing]
  else []

/- `validate_epc_record` from src/extractors/utils_validation.py; the
`IndexError` from the rating check escapes the function. -/
def validate_epc_record (r : EpcRec) : Except PyErr (Bool × List VErr) :=
  match ratingErrs r with
  | .error e => .error e
  | .ok errs₂ =>
    let errs := requiredFieldErrs r ++ errs₂ ++ expiredErrs r
    .ok (errs.isEmpty, errs)

theorem badRatingBand_not_mem_required (r : EpcRec) :
    VErr.badRatingBand ∉ requiredFieldErrs r := by
  intro h
  simp only [requiredFieldErrs, List.mem_filterMap] at h
  obtain ⟨f, _, hf⟩ := h
  by_cases hp : pyTruthy (dictGet r f) <;> simp [hp] at hf

theorem badRatingBand_not_mem_expired (r : EpcRec) :
    VErr.badRatingBand ∉ expiredErrs r := by
  intro h
  unfold expiredErrs at h
  by_cases hp : pyTruthy (dictGet r "validtillDate") && decide (dictGet r "expired" = Val.vNull) <;>
    simp [hp] at h

/-- C7: for a record whose rating is a non-empty string, the rating check
passes exactly when the last whitespace-delimited token of the
(stripped, upper-cased) rating is one of the single letters A-G, and for
any other trailing token a rating-band error is added. -/
theorem validate_rating_band (r : EpcRec) (s t : String)
    (hget : dictGet r "rating" = .vStr s) (hne : s ≠ "")
    (ht : (pyTokens (pyUpper (pyStrip s))).getLast? = some t) :
    ∃ ok errs, validate_epc_record r = .ok (ok, errs) ∧
      (VErr.badRatingBand ∈ errs ↔ t ∉ ratingBandLetters) := by
  have htr : pyTruthy (dictGet r "rating") = true := by
    rw [hget]
    simpa [pyTruthy] using hne
  have hstr : pyStrOfVal (dictGet r "rating") = s := by rw [hget]; rfl
  have hrr : ratingErrs r =
      if ratingBandLetters.contains t then Except.ok [] else Except.ok [VErr.badRatingBand] := by
    unfold ratingErrs
    rw [htr, if_pos rfl, hstr, ht]
  by_cases hb : ratingBandLetters.contains t
  · rw [if_pos hb] at hrr
    unfold validate_epc_record
    rw [hrr]
    refine ⟨_, _, rfl, ?_⟩
    have hmem : t ∈ ratingBandLetters := by
      simpa using hb
    simp only [List.append_nil, List.mem_append]
    constructor
    · rintro (h | h)
      · exact absurd h (badRatingBand_not_mem_required r)
      · exact absurd h (badRatingBand_not_mem_expired r)
    · intro h
      exact absurd hmem h
  · rw [if_neg hb] at hrr
    unfold validate_epc_record
    rw [hrr]
    refine ⟨_, _, rfl, ?_⟩
    have hmem : t ∉ ratingBandLetters := by
      simpa using hb
    simp [hmem]

/-- Witness for C7 at the rating "75 C". -/
theorem validate_rating_band_witness :
    dictGet [("rating", Val.vStr "75 C")] "rating" = .vStr "75 C" ∧
    ∃ ok errs, validate_epc_record [("rating", Val.vStr "75 C")] = .ok (ok, errs) ∧
      (VErr.badRatingBand ∈ errs ↔ "C" ∉ ratingBandLetters) :=
  ⟨rfl, validate_rating_band [("rating", Val.vStr "75 C")] "75 C" "C" rfl
    (by decide) (by decide)⟩

/-- C10: on a record whose rating is a truthy string made only of
whitespace, `validate_epc_record` does not return a result: the rating
check indexes the last element of an empty token list and the
`IndexError` escapes. -/
theorem validate_whitespace_rating_no_result (r : EpcRec) (s : String)
    (hget : dictGet r "rating" = .vStr s) (hne : s ≠ "")
    (hws : ∀ c ∈ s.toList, c.isWhitespace) :
    validate_epc_record r = .error .indexError := by
  have htr : pyTruthy (dictGet r "rating") = true := by
    rw [hget]
    simpa [pyTruthy] using hne
  have hstr : pyStrOfVal (dictGet r "rating") = s := by rw [hget]; rfl
  have hstrip : pyStripL s.toList = [] := by
    unfold pyStripL
    have h1 : s.toList.dropWhile Char.isWhitespace = [] :=
      List.dropWhile_eq_nil_iff.mpr (fun x hx => hws x hx)
    rw [h1]
    rfl
  have htok : pyTokens (pyUpper (pyStrip s)) = [] := by
    unfold pyStrip
    rw [hstrip]
    rfl
  unfold validate_epc_record ratingErrs
  rw [htr, if_pos rfl, hstr, htok]
  rfl

/-- Witness for C10 at the rating " ". -/
theorem validate_whitespace_rating_no_result_witness :
    (" " : String) ≠ "" ∧
    validate_epc_record [("rating", Val.vStr " ")] = .error PyErr.indexError :=
  ⟨by decide, validate_whitespace_rating_no_result [("rating", Val.vStr " ")] " " rfl
    (by decide) (by decide)⟩

/- ## Listing-page parsing (src/extractors/epc_parser.py) -/

/- The fixed canonical service origin. -/
def DEFAULT_BASE : String := "https://find-energy-certificate.service.gov.uk"

/- The marker substring identifying certificate links. -/
def CERT_MARKER : String := "/energy-certificate/"

/- A listing page as the parser sees it: the href of every anchor that
carries one, in document order, and the visible text of the page. -/
structure ListingDoc where
  anchors : List String
  text : String

/- `_build_absolute_url`: `uj` is `urllib.parse.urljoin`, taken as a
parameter. -/
def build_absolute_url (uj : String → String → String) (href base_url : String) : String :=
  if pyStartsWith href "http://" || pyStartsWith href "https://" then href
  else if pyStartsWith href "/" then uj DEFAULT_BASE href
  else uj base_url href

/- `parse_listing_page`: collect into a set the resolved href of every
anchor containing the marker; when that set is empty, scan the whitespace
tokens of the page text instead; return the set sorted. -/
def parse_listing_page (uj : String → String → String) (doc : ListingDoc)
    (base_url : String) : List String :=
  let fromAnchors : Finset String :=
    ((doc.anchors.filter (fun h => pyContains h CERT_MARKER)).map
      (fun h => build_absolute_url uj h base_url)).toFinset
  let certificate_urls : Finset String :=
    if fromAnchors = ∅ then
      (((pyTokens doc.text).filter (fun t => pyContains t CERT_MARKER)).map
        (fun t => build_absolute_url uj (pySuffixFrom t CERT_MARKER) base_url)).toFinset
    else fromAnchors
  sortFin certificate_urls

/- Claim-side resolution rule, written from the words of the
specification: absolute hrefs pass through, root-relative hrefs resolve
against the fixed canonical origin (not the base URL of the page), all
other hrefs resolve against the base URL. -/
def resolveClaim (uj : String → String → String) (base_url href : String) : String :=
  if pyStartsWith href "http://" || pyStartsWith href "https://" then href
  else if pyStartsWith href "/" then
    uj "https://find-energy-certificate.service.gov.uk" href
  else uj base_url href

/- Claim-side candidate list: every matching anchor href resolved; the
text-token fallback exactly when zero anchors match. -/
def listingCandidatesClaim (uj : String → String → String) (doc : ListingDoc)
    (base_url : String) : List String :=
  let matching := doc.anchors.filter (fun h => pyContains h CERT_MARKER)
  if matching = [] then
    ((pyTokens doc.text).filter (fun t => pyContains t CERT_MARKER)).map
      (fun t => resolveClaim uj base_url (pySuffixFrom t CERT_MARKER))
  else matching.map (resolveClaim uj base_url)

theorem resolveClaim_eq_build (uj : String → String → String) (b h : String) :
    resolveClaim uj b h = build_absolute_url uj h b := rfl

/-- C4: for every listing document and base URL (and every behaviour of
`urljoin`), `parse_listing_page` returns the deduplicated,
lexicographically sorted resolutions of the anchor hrefs containing
"/energy-certificate/", where absolute hrefs pass through, root-relative
hrefs resolve against the fixed canonical origin rather than the base
URL, other hrefs resolve against the base URL, and the text-token
fallback is used exactly when zero anchors match. -/
theorem parse_listing_page_spec (uj : String → String → String) (doc : ListingDoc)
    (base_url : String) :
    parse_listing_page uj doc base_url =
      sortFin (listingCandidatesClaim uj doc base_url).toFinset := by
  unfold parse_listing_page listingCandidatesClaim
  by_cases hm : doc.anchors.filter (fun h => pyContains h CERT_MARKER) = []
  · have h1 : ((doc.anchors.filter (fun h => pyContains h CERT_MARKER)).map
        (fun h => build_absolute_url uj h base_url)).toFinset = ∅ := by
      rw [hm]
      rfl
    simp only [hm, h1, if_pos rfl, if_pos rfl]
    rfl
  · have h1 : ((doc.anchors.filter (fun h => pyContains h CERT_MARKER)).map
        (fun h => build_absolute_url uj h base_url)).toFinset ≠ ∅ := by
      rw [Ne, List.toFinset_eq_empty_iff, List.map_eq_nil_iff]
      exact hm
    simp only [h1, if_neg h1, if_neg hm]
    rfl

/- ## Certificate tables: features and recommended changes -/

/- A table cell: whether it is a `th` cell, and its stripped text. -/
structure Cell where
  th : Bool
  text : String
  deriving DecidableEq, Repr

abbrev Row := List Cell

/- A certificate page flattened to document order: headings (of any
level), tables, and other elements. -/
inductive Node where
  | heading (lvl : Nat) (txt : String)
  | table (rows : List Row)
  | misc
  deriving DecidableEq, Repr

abbrev CertDoc := List Node

/- `soup.find_all("table")` / `header.find_all_next("table")`: the tables
of a node list in document order. -/
def tablesOf (doc : CertDoc) : List (List Row) :=
  doc.filterMap (fun n => match n with | .table rows => some rows | _ => none)

structure Feature where
  name : Option String
  description : Option String
  rating : Option String
  deriving DecidableEq, Repr

structure Change where
  name : Option String
  installationCost : Option String
  yearlySaving : Option String
  potentialRating : Option String
  deriving DecidableEq, Repr

/- Truthiness of `cols[i].get_text(...) if len(cols) > i else None`. -/
def optTruthy : Option String → Bool
  | none => false
  | some s => s ≠ ""

/- `acc.append(x)` guarded on an optional value. -/
def appendOpt {β : Type} (a : List β) (o : Option β) : List β :=
  match o with
  | some y => a ++ [y]
  | none => a

/- The body of the feature row loop: skip rows with no cells, read the
first three cells, append only when some value is truthy. -/
def featureRow (row : Row) : Option Feature :=
  if row.isEmpty then none
  else
    let name := (row.get? 0).map Cell.text
    let description := (row.get? 1).map Cell.text
    let rating := (row.get? 2).map Cell.text
    if optTruthy name || optTruthy description || optTruthy rating then
      some ⟨name, description, rating⟩
    else none

/- One table iteration of `_parse_features`: headers are the texts of all
`th` cells in the table; tables with no `th`, or none mentioning
"feature", contribute nothing. -/
def featuresTableStep (acc : List Feature) (rows : List Row) : List Feature :=
  let headers := (rows.flatten.filter Cell.th).map (fun c => pyLower c.text)
  if headers.isEmpty then acc
  else if !(headers.any (fun h => pyContains h "feature")) then acc
  else
    (rows.drop 1).foldl (fun a row => appendOpt a (featureRow row)) acc

/- `_parse_features` from src/extractors/epc_parser.py. -/
def parse_features (doc : CertDoc) : List Feature :=
  (tablesOf doc).foldl featuresTableStep []

/- Spec-side row rule of the amended claim: a row yields a record exactly
when one of its first three cells has non-empty text. -/
def featureRowSpec (row : Row) : Option Feature :=
  if (row.take 3).any (fun c => c.text ≠ "") then
    some ⟨(row.get? 0).map Cell.text, (row.get? 1).map Cell.text, (row.get? 2).map Cell.text⟩
  else none

/- Spec-side table rule of the amended claim: the table has a `th` cell,
and some `th` cell anywhere in it mentions "feature". -/
def featureTableSpec (rows : List Row) : Bool :=
  rows.flatten.any Cell.th &&
    rows.flatten.any (fun c => c.th && pyContains (pyLower c.text) "feature")

/- The amended features extraction, one clause per claim phrase. -/
def parse_features_spec (doc : CertDoc) : List Feature :=
  (((tablesOf doc).filter featureTableSpec).map
    (fun rows => (rows.drop 1).filterMap featureRowSpec)).flatten

theorem foldl_opt_append {α β : Type} (f : α → Option β) (l : List α) (acc : List β) :
    l.foldl (fun a x => appendOpt a (f x)) acc = acc ++ l.filterMap f := by
  induction l generalizing acc with
  | nil => simp
  | cons x xs ih =>
    rw [List.foldl_cons]
    cases hf : f x with
    | none =>
      rw [show appendOpt acc (none : Option β) = acc from rfl, ih, List.filterMap_cons, hf]
    | some y =>
      rw [show appendOpt acc (some y) = acc ++ [y] from rfl, ih, List.filterMap_cons, hf]
      simp

theorem featureRow_eq_spec (row : Row) : featureRow row = featureRowSpec row := by
  match row with
  | [] => rfl
  | [a] =>
    simp [featureRow, featureRowSpec, optTruthy, List.take, List.get?]
  | [a, b] =>
    simp [featureRow, featureRowSpec, optTruthy, List.take, List.get?, Bool.or_assoc]
  | a :: b :: c :: rest =>
    simp [featureRow, featureRowSpec, optTruthy, List.take, List.get?, Bool.or_assoc]

theorem headersEmptyB (rows : List Row) :
    ((rows.flatten.filter Cell.th).map (fun c => pyLower c.text)).isEmpty =
      !(rows.flatten.any Cell.th) := by
  cases h : rows.flatten.any Cell.th with
  | false =>
    have hf : rows.flatten.filter Cell.th = [] := by
      rw [List.filter_eq_nil_iff]
      exact fun a ha hp => (List.any_eq_false.mp h a ha) hp
    simp [hf]
  | true =>
    obtain ⟨c, hc, hth⟩ := List.any_eq_true.mp h
    have hmem : c ∈ rows.flatten.filter Cell.th := List.mem_filter.mpr ⟨hc, hth⟩
    have hne : rows.flatten.filter Cell.th ≠ [] := by
      intro hnil
      rw [hnil] at hmem
      cases hmem
    simp only [Bool.not_true]
    rw [List.isEmpty_eq_false]
    simpa using hne

theorem headersFeatureB (rows : List Row) :
    ((rows.flatten.filter Cell.th).map (fun c => pyLower c.text)).any
        (fun h => pyContains h "feature") =
      rows.flatten.any (fun c => c.th && pyContains (pyLower c.text) "feature") := by
  induction rows.flatten with
  | nil => rfl
  | cons c cs ih =>
    by_cases h : c.th = true
    · simp [List.filter_cons, h, ih]
    · simp [List.filter_cons, h, ih]

theorem featureRow_funext : featureRow = featureRowSpec :=
  funext featureRow_eq_spec

theorem featuresTableStep_eq (acc : List Feature) (rows : List Row) :
    featuresTableStep acc rows =
      acc ++ (if featureTableSpec rows then (rows.drop 1).filterMap featureRowSpec else []) := by
  unfold featuresTableStep featureTableSpec
  simp only [headersEmptyB, headersFeatureB]
  cases hth : rows.flatten.any Cell.th with
  | false => simp
  | true =>
    cases hf : rows.flatten.any (fun c => c.th && pyContains (pyLower c.text) "feature") with
    | false => simp
    | true =>
      simp only [Bool.not_true, Bool.true_and, Bool.false_eq_true, if_false, Bool.not_false,
        if_true]
      rw [foldl_opt_append, featureRow_funext]

theorem parse_features_foldl (tables : List (List Row)) (acc : List Feature) :
    tables.foldl featuresTableStep acc =
      acc ++ ((tables.filter featureTableSpec).map
        (fun rows => (rows.drop 1).filterMap featureRowSpec)).flatten := by
  induction tables generalizing acc with
  | nil => simp
  | cons t ts ih =>
    rw [List.foldl_cons, featuresTableStep_eq, ih]
    by_cases hsel : featureTableSpec t
    · simp [hsel, List.filter_cons, List.append_assoc]
    · simp [hsel, List.filter_cons]

/-- C6 (amended): the features extraction processes every table that has
at least one `th` cell anywhere in it (not only in the header row) whose
text mentions "feature"; each row after the first yields a feature record
from its first three cells, and the rows skipped are exactly those with
zero cells or whose first three cells all have empty text. -/
theorem parse_features_eq_spec (doc : CertDoc) :
    parse_features doc = parse_features_spec doc := by
  unfold parse_features parse_features_spec
  rw [parse_features_foldl]
  rfl

/- The features extraction exactly as claim C6 words it: select tables
whose header row (the first row) has a `th` cell matching "feature", and
skip only rows with zero cells. -/
def claimFeatures (doc : CertDoc) : List Feature :=
  (((tablesOf doc).filter (fun rows =>
      match rows.head? with
      | some headerRow => headerRow.any (fun c => c.th && pyContains (pyLower c.text) "feature")
      | none => false)).map
    (fun rows => (rows.drop 1).filterMap (fun row =>
      if row.isEmpty then none
      else some ⟨(row.get? 0).map Cell.text, (row.get? 1).map Cell.text,
        (row.get? 2).map Cell.text⟩))).flatten

/- The counterexample document for C6: a feature table whose single data
row has one cell with empty text. -/
def featuresCexDoc : CertDoc :=
  [.table [[⟨true, "Feature"⟩, ⟨true, "Description"⟩, ⟨true, "Rating"⟩],
           [⟨false, ""⟩]]]

/-- C6 counterexample: the claim says the data row (one cell, empty text)
is not skipped and yields a record, but the code skips it because all of
its first three cells are empty-or-missing; the two functions disagree on
this concrete document. -/
theorem parse_features_claim_false :
    parse_features featuresCexDoc = [] ∧
    claimFeatures featuresCexDoc = [⟨some "", none, none⟩] := by
  constructor
  · rfl
  · rfl

/- ## Recommended changes (src/extractors/epc_parser.py, _parse_changes) -/

/- The body of the change row loop: skip rows with no cells, read the
first four cells, append only when some value is truthy. -/
def changeRow (row : Row) : Option Change :=
  if row.isEmpty then none
  else
    let name := (row.get? 0).map Cell.text
    let installation_cost := (row.get? 1).map Cell.text
    let yearly_saving := (row.get? 2).map Cell.text
    let potential_rating := (row.get? 3).map Cell.text
    if optTruthy name || optTruthy installation_cost || optTruthy yearly_saving ||
        optTruthy potential_rating then
      some ⟨name, installation_cost, yearly_saving, potential_rating⟩
    else none

/- The heading filter: lowercased text mentioning "improvement" or
"recommended measure". -/
def headingMatches (txt : String) : Bool :=
  pyContains (pyLower txt) "improvement" || pyContains (pyLower txt) "recommended measure"

/- `_parse_changes` as a walk over the document: for every heading of
level 2-4 whose text matches, take `find_all_next("table", limit=2)` on
the following nodes, process the first table found, and break. -/
def parseChangesGo : CertDoc → List Change → List Change
  | [], acc => acc
  | .heading lvl txt :: rest, acc =>
    if (2 ≤ lvl && lvl ≤ 4) && headingMatches txt then
      match (tablesOf rest).take 2 with
      | [] => parseChangesGo rest acc
      | t :: _ =>
        parseChangesGo rest ((t.drop 1).foldl (fun a row => appendOpt a (changeRow row)) acc)
    else parseChangesGo rest acc
  | .table _ :: rest, acc => parseChangesGo rest acc
  | .misc :: rest, acc => parseChangesGo rest acc

def parse_changes (doc : CertDoc) : List Change :=
  parseChangesGo doc []

/- Spec-side: the node suffix after each matching heading, in document
order. -/
def headingTails : CertDoc → List CertDoc
  | [] => []
  | .heading lvl txt :: rest =>
    if (2 ≤ lvl && lvl ≤ 4) && headingMatches txt then rest :: headingTails rest
    else headingTails rest
  | .table _ :: rest => headingTails rest
  | .misc :: rest => headingTails rest

/- Spec-side row rule of the amended claim: a row yields a record exactly
when one of its first four cells has non-empty text. -/
def changeRowSpec (row : Row) : Option Change :=
  if (row.take 4).any (fun c => c.text ≠ "") then
    some ⟨(row.get? 0).map Cell.text, (row.get? 1).map Cell.text, (row.get? 2).map Cell.text,
      (row.get? 3).map Cell.text⟩
  else none

/- The amended changes extraction: for each matching heading, the first
table found after it in document order contributes one record per
surviving row after the header row. -/
def parse_changes_spec (doc : CertDoc) : List Change :=
  ((headingTails doc).map (fun rest =>
    match (tablesOf rest).head? with
    | some t => (t.drop 1).filterMap changeRowSpec
    | none => [])).flatten

theorem changeRow_eq_spec (row : Row) : changeRow row = changeRowSpec row := by
  match row with
  | [] => rfl
  | [a] => simp [changeRow, changeRowSpec, optTruthy, List.take, List.get?, Bool.or_assoc]
  | [a, b] => simp [changeRow, changeRowSpec, optTruthy, List.take, List.get?, Bool.or_assoc]
  | [a, b, c] => simp [changeRow, changeRowSpec, optTruthy, List.take, List.get?, Bool.or_assoc]
  | a :: b :: c :: d :: rest =>
    simp [changeRow, changeRowSpec, optTruthy, List.take, List.get?, Bool.or_assoc]

theorem changeRow_funext : changeRow = changeRowSpec :=
  funext changeRow_eq_spec

theorem parseChangesGo_spec (doc : CertDoc) (acc : List Change) :
    parseChangesGo doc acc = acc ++ parse_changes_spec doc := by
  induction doc generalizing acc with
  | nil => simp [parseChangesGo, parse_changes_spec, headingTails]
  | cons n rest ih =>
    cases n with
    | heading lvl txt =>
      by_cases hc : ((2 ≤ lvl && lvl ≤ 4) && headingMatches txt) = true
      · cases htab : (tablesOf rest).take 2 with
        | nil =>
          have hh : (tablesOf rest).head? = none := by
            cases hl : tablesOf rest with
            | nil => rfl
            | cons x xs => rw [hl] at htab; cases htab
          simp only [parseChangesGo, hc, if_true, htab, ih, parse_changes_spec, headingTails]
          simp [hh]
        | cons t ts =>
          have hh : (tablesOf rest).head? = some t := by
            cases hl : tablesOf rest with
            | nil => rw [hl] at htab; cases htab
            | cons x xs =>
              have hx : x = t := by
                rw [hl, show List.take 2 (x :: xs) = x :: List.take 1 xs from rfl,
                  List.cons.injEq] at htab
                exact htab.1
              rw [List.head?_cons, hx]
          simp only [parseChangesGo, hc, if_true, htab, ih, parse_changes_spec, headingTails]
          rw [foldl_opt_append, changeRow_funext]
          simp [hh, List.append_assoc]
      · simp only [parseChangesGo, hc, if_false, ih, parse_changes_spec, headingTails]
        simp [hc]
    | table rows =>
      simp only [parseChangesGo, ih, parse_changes_spec, headingTails]
    | misc =>
      simp only [parseChangesGo, ih, parse_changes_spec, headingTails]

/-- C5 (amended): for every heading of level 2-4 whose text contains
"improvement" or "recommended measure", the extraction takes the next
table found after that heading in document order and consumes only that
one table per matching heading; each row after the header row yields one
change record from cells 0-3, except rows with zero cells or whose first
four cells all have empty text, which are skipped. -/
theorem parse_changes_eq_spec (doc : CertDoc) :
    parse_changes doc = parse_changes_spec doc := by
  unfold parse_changes
  rw [parseChangesGo_spec]
  rfl

/- The changes extraction exactly as claim C5 words it: one change record
per row after the header row, no rows skipped. -/
def claimChanges (doc : CertDoc) : List Change :=
  ((headingTails doc).map (fun rest =>
    match (tablesOf rest).head? with
    | some t => (t.drop 1).map (fun row =>
        ⟨(row.get? 0).map Cell.text, (row.get? 1).map Cell.text, (row.get? 2).map Cell.text,
          (row.get? 3).map Cell.text⟩)
    | none => [])).flatten

/- The counterexample document for C5: a matching heading followed by a
table whose single data row has one cell with empty text. -/
def changesCexDoc : CertDoc :=
  [.heading 2 "Recommended improvements", .table [[⟨true, "Measure"⟩], [⟨false, ""⟩]]]

/-- C5 counterexample: the claim promises one change record per row after
the header row, but the code emits none for the data row whose cells are
all empty-or-missing; the two functions disagree on this concrete
document. -/
theorem parse_changes_claim_false :
    parse_changes changesCexDoc = [] ∧
    claimChanges changesCexDoc = [⟨some "", none, none, none⟩] :=
  ⟨rfl, rfl⟩

/- ## Deduplication (src/main.py, deduplicate_records) -/

/- `seen[rec_id] = rec` on an insertion-ordered dict: replace the value at
the first occurrence of the key, keeping its position, else append. -/
def insertReplace : List (Val × EpcRec) → Val → EpcRec → List (Val × EpcRec)
  | [], k, r => [(k, r)]
  | (k₀, r₀) :: rest, k, r =>
    if k₀ = k then (k₀, r) :: rest else (k₀, r₀) :: insertReplace rest k r

/- One iteration of the loop in `deduplicate_records`: a falsy id mutates
the record with the next synthetic `anonymous-N` id before storing. -/
def dedupStep (acc : List (Val × EpcRec) × Nat) (r : EpcRec) : List (Val × EpcRec) × Nat :=
  let rec_id := dictGet r "id"
  if pyTruthy rec_id then (insertReplace acc.1 rec_id r, acc.2)
  else
    let n := acc.2 + 1
    let rid : Val := .vStr ("anonymous-" ++ toString n)
    (insertReplace acc.1 rid (dictSet r "id" rid), n)

/- `deduplicate_records` from src/main.py: `list(seen.values())`. -/
def deduplicate_records (records : List EpcRec) : List EpcRec :=
  ((records.foldl dedupStep ([], 0)).1).map Prod.snd

/- Claim-side id assignment, written from the words of the specification:
each record lacking a truthy id receives "anonymous-N" with N assigned in
encounter order starting at 1 (counter argument 0 at the start). -/
def assignIds : List EpcRec → Nat → List EpcRec
  | [], _ => []
  | r :: rest, c =>
    if pyTruthy (dictGet r "id") then r :: assignIds rest c
    else dictSet r "id" (.vStr ("anonymous-" ++ toString (c + 1))) :: assignIds rest (c + 1)

/- The counter-free last-wins dictionary fold over already-assigned
records. -/
def insFold (seen : List (Val × EpcRec)) (l : List EpcRec) : List (Val × EpcRec) :=
  l.foldl (fun s r => insertReplace s (dictGet r "id") r) seen

theorem dedup_foldl_eq (records : List EpcRec) (seen : List (Val × EpcRec)) (c : Nat) :
    (records.foldl dedupStep (seen, c)).1 = insFold seen (assignIds records c) := by
  induction records generalizing seen c with
  | nil => rfl
  | cons r rest ih =>
    rw [List.foldl_cons]
    by_cases ht : pyTruthy (dictGet r "id")
    · have hstep : dedupStep (seen, c) r = (insertReplace seen (dictGet r "id") r, c) := by
        simp [dedupStep, ht]
      rw [hstep, ih]
      simp only [assignIds, ht, if_true, insFold, List.foldl_cons]
    · have hstep : dedupStep (seen, c) r =
          (insertReplace seen (.vStr ("anonymous-" ++ toString (c + 1)))
            (dictSet r "id" (.vStr ("anonymous-" ++ toString (c + 1)))), c + 1) := by
        simp [dedupStep, ht]
      rw [hstep, ih]
      simp only [assignIds, ht, if_false, insFold, List.foldl_cons, Bool.false_eq_true]
      rw [dictGet_set_same]

/- First-occurrence lookup in the ordered dict. -/
def alookup : List (Val × EpcRec) → Val → Option EpcRec
  | [], _ => none
  | (k₀, r₀) :: rest, k => if k₀ = k then some r₀ else alookup rest k

/- The keys of the ordered dict, in order. -/
def akeys (seen : List (Val × EpcRec)) : List Val :=
  seen.map Prod.fst

theorem alookup_insertReplace (seen : List (Val × EpcRec)) (k k' : Val) (r : EpcRec) :
    alookup (insertReplace seen k r) k' = if k = k' then some r else alookup seen k' := by
  induction seen with
  | nil => simp [insertReplace, alookup]
  | cons p rest ih =>
    obtain ⟨k₀, r₀⟩ := p
    by_cases h₀ : k₀ = k
    · subst h₀
      by_cases h' : k₀ = k'
      · simp [insertReplace, alookup, h']
      · simp [insertReplace, alookup, h']
    · by_cases h' : k₀ = k'
      · subst h'
        have : ¬(k = k₀) := fun hh => h₀ hh.symm
        simp [insertReplace, alookup, h₀, this]
      · simp [insertReplace, alookup, h₀, h', ih]

theorem akeys_insertReplace (seen : List (Val × EpcRec)) (k : Val) (r : EpcRec) :
    akeys (insertReplace seen k r) =
      if k ∈ akeys seen then akeys seen else akeys seen ++ [k] := by
  induction seen with
  | nil => simp [insertReplace, akeys]
  | cons p rest ih =>
    obtain ⟨k₀, r₀⟩ := p
    by_cases h₀ : k₀ = k
    · subst h₀
      simp [insertReplace, akeys]
    · have hne : ¬(k = k₀) := fun hh => h₀ hh.symm
      simp only [insertReplace, if_neg h₀, akeys, List.map_cons] at ih ⊢
      rw [ih]
      by_cases hmem : k ∈ List.map Prod.fst rest
      · simp [hmem, hne]
      · simp [hmem, hne]

theorem nodup_akeys_insertReplace (seen : List (Val × EpcRec)) (k : Val) (r : EpcRec)
    (h : (akeys seen).Nodup) : (akeys (insertReplace seen k r)).Nodup := by
  rw [akeys_insertReplace]
  by_cases hmem : k ∈ akeys seen
  · simpa [hmem] using h
  · rw [if_neg hmem]
    simp [List.nodup_append, h, hmem]

theorem inv_insertReplace (seen : List (Val × EpcRec)) (k : Val) (r : EpcRec)
    (hr : dictGet r "id" = k) :
    (∀ p ∈ seen, dictGet p.2 "id" = p.1) →
    ∀ p ∈ insertReplace seen k r, dictGet p.2 "id" = p.1 := by
  induction seen with
  | nil =>
    intro _ p hp
    simp only [insertReplace, List.mem_singleton] at hp
    subst hp
    exact hr
  | cons q rest ih =>
    obtain ⟨k₀, r₀⟩ := q
    intro hseen p hp
    by_cases h₀ : k₀ = k
    · subst h₀
      simp [insertReplace] at hp
      rcases hp with hpe | hpm
      · subst hpe
        exact hr
      · exact hseen p (List.mem_cons_of_mem _ hpm)
    · simp only [insertReplace, if_neg h₀, List.mem_cons] at hp
      rcases hp with hpe | hpm
      · subst hpe
        exact hseen _ (List.mem_cons_self _ _)
      · exact ih (fun q hq => hseen q (List.mem_cons_of_mem _ hq)) p hpm

theorem inv_insFold (l : List EpcRec) (seen : List (Val × EpcRec))
    (hseen : ∀ p ∈ seen, dictGet p.2 "id" = p.1) :
    ∀ p ∈ insFold seen l, dictGet p.2 "id" = p.1 := by
  induction l generalizing seen with
  | nil => exact hseen
  | cons r rest ih =>
    exact ih _ (inv_insertReplace seen (dictGet r "id") r rfl hseen)

theorem nodup_insFold (l : List EpcRec) (seen : List (Val × EpcRec))
    (hseen : (akeys seen).Nodup) : (akeys (insFold seen l)).Nodup := by
  induction l generalizing seen with
  | nil => exact hseen
  | cons r rest ih =>
    exact ih _ (nodup_akeys_insertReplace seen (dictGet r "id") r hseen)

theorem mem_of_alookup (seen : List (Val × EpcRec)) (k : Val) (r : EpcRec)
    (h : alookup seen k = some r) : (k, r) ∈ seen := by
  induction seen with
  | nil => cases h
  | cons p rest ih =>
    obtain ⟨k₀, r₀⟩ := p
    by_cases h₀ : k₀ = k
    · subst h₀
      have hr : r₀ = r := by simpa [alookup] using h
      subst hr
      exact List.mem_cons_self _ _
    · refine List.mem_cons_of_mem _ (ih ?_)
      simpa [alookup, h₀] using h

theorem alookup_of_mem_nodup (seen : List (Val × EpcRec)) (k : Val) (r : EpcRec)
    (hmem : (k, r) ∈ seen) (hnd : (akeys seen).Nodup) : alookup seen k = some r := by
  induction seen with
  | nil => cases hmem
  | cons p rest ih =>
    obtain ⟨k₀, r₀⟩ := p
    rcases List.mem_cons.mp hmem with hp | hp
    · cases hp
      simp [alookup]
    · by_cases h₀ : k₀ = k
      · subst h₀
        have : k₀ ∈ akeys rest := by
          simp only [akeys, List.mem_map]
          exact ⟨(k₀, r), hp, rfl⟩
        have hnd' := (List.nodup_cons.mp hnd).1
        exact absurd this hnd'
      · simp only [alookup, if_neg h₀]
        exact ih hp (List.nodup_cons.mp hnd).2

theorem alookup_insFold (l : List EpcRec) (seen : List (Val × EpcRec)) (k : Val) :
    alookup (insFold seen l) k =
      match (l.filter (fun q => decide (dictGet q "id" = k))).getLast? with
      | some r => some r
      | none => alookup seen k := by
  induction l using List.reverseRecOn generalizing seen with
  | nil => simp [insFold]
  | append_singleton l a ih =>
    have hfold : insFold seen (l ++ [a]) = insertReplace (insFold seen l) (dictGet a "id") a := by
      unfold insFold
      rw [List.foldl_append]
      rfl
    rw [hfold, alookup_insertReplace, List.filter_append]
    by_cases hp : dictGet a "id" = k
    · rw [if_pos hp]
      have h1 : List.filter (fun q => decide (dictGet q "id" = k)) [a] = [a] := by simp [hp]
      rw [h1, List.getLast?_concat]
    · rw [if_neg hp]
      have h1 : List.filter (fun q => decide (dictGet q "id" = k)) [a] = [] := by simp [hp]
      rw [h1, List.append_nil, ih]

/-- C8: `deduplicate_records` produces an output whose `id` values are
all distinct; with `assignIds` giving each record lacking a truthy id the
synthetic id "anonymous-N" in encounter order starting at 1 (exactly the
encounter-order assignment the code performs), every output record is the
last record among the assigned inputs carrying its id, and every assigned
id is represented in the output. -/
theorem deduplicate_records_spec (records : List EpcRec) :
    ((deduplicate_records records).map (fun r => dictGet r "id")).Nodup
    ∧ (∀ v r, r ∈ deduplicate_records records → dictGet r "id" = v →
        ((assignIds records 0).filter
          (fun q => decide (dictGet q "id" = v))).getLast? = some r)
    ∧ (∀ v, (∃ r ∈ assignIds records 0, dictGet r "id" = v) →
        ∃ r ∈ deduplicate_records records, dictGet r "id" = v) := by
  have hbridge : deduplicate_records records =
      (insFold [] (assignIds records 0)).map Prod.snd := by
    unfold deduplicate_records
    rw [dedup_foldl_eq]
  set A := assignIds records 0 with hA
  set F := insFold [] A with hF
  have hinv : ∀ p ∈ F, dictGet p.2 "id" = p.1 := by
    rw [hF]
    exact inv_insFold A [] (by intro p hp; cases hp)
  have hnd : (akeys F).Nodup := by
    rw [hF]
    exact nodup_insFold A [] (by simp [akeys])
  have hlookF : ∀ k, alookup F k =
      (A.filter (fun q => decide (dictGet q "id" = k))).getLast? := by
    intro k
    rw [hF, alookup_insFold]
    cases (A.filter (fun q => decide (dictGet q "id" = k))).getLast? <;> simp [alookup]
  refine ⟨?_, ?_, ?_⟩
  · rw [hbridge, List.map_map]
    have hmc : F.map ((fun r => dictGet r "id") ∘ Prod.snd) = F.map Prod.fst :=
      List.map_congr_left (fun p hp => hinv p hp)
    rw [hmc]
    exact hnd
  · intro v r hr hid
    rw [hbridge] at hr
    obtain ⟨p, hpF, hpr⟩ := List.mem_map.mp hr
    have hkey : p.1 = v := by
      rw [← hinv p hpF, hpr, hid]
    have halook : alookup F v = some r := by
      have hmem : (p.1, p.2) ∈ F := by
        rw [Prod.mk.eta]
        exact hpF
      have := alookup_of_mem_nodup F p.1 p.2 hmem hnd
      rw [hkey, hpr] at this
      exact this
    rw [← hlookF v, halook]
  · rintro v ⟨r, hrA, hrid⟩
    have hne : A.filter (fun q => decide (dictGet q "id" = v)) ≠ [] := by
      intro h0
      have hmem : r ∈ A.filter (fun q => decide (dictGet q "id" = v)) :=
        List.mem_filter.mpr ⟨hrA, by simp [hrid]⟩
      rw [h0] at hmem
      cases hmem
    obtain ⟨q, hq⟩ := Option.isSome_iff_exists.mp (List.getLast?_isSome.mpr hne)
    have halq : alookup F v = some q := by
      rw [hlookF v, hq]
    have hmemF : (v, q) ∈ F := mem_of_alookup F v q halq
    refine ⟨q, ?_, ?_⟩
    · rw [hbridge]
      exact List.mem_map.mpr ⟨(v, q), hmemF, rfl⟩
    · exact hinv _ hmemF

/- Witness records for C8: two records sharing the id "abc" and one
record with no id. -/
def dedupWitnessRecords : List EpcRec :=
  [[("id", Val.vStr "abc"), ("x", Val.vInt 1)],
   [("id", Val.vStr "abc"), ("x", Val.vInt 2)],
   [("y", Val.vInt 3)]]

/-- Witness for C8: among the assigned records the last one carrying id
"abc" is the second input record, and the code keeps exactly it. -/
theorem deduplicate_records_spec_witness :
    ((assignIds dedupWitnessRecords 0).filter
      (fun q => decide (dictGet q "id" = Val.vStr "abc"))).getLast? =
      some [("id", Val.vStr "abc"), ("x", Val.vInt 2)] :=
  (deduplicate_records_spec dedupWitnessRecords).2.1 (Val.vStr "abc")
    [("id", Val.vStr "abc"), ("x", Val.vInt 2)] (by decide) (by decide)
